import Mathlib

/-!
Verification of the generic best-first (A*) search engine of `src/a_star.rs`.

The Rust code is shallowly embedded as follows:

* the `State` trait (methods `min_remaining_cost`, `successors`, `is_complete`)
  together with the `Eq + Hash` bounds used by `solve` is embedded as the
  structure `SearchProblem`; the field `beq` models the `Eq` implementation
  the `HashSet` of visited states uses (for the `Tracking` wrapper this is
  *not* structural equality, it only compares the inner states);
* `Candidate`, `Candidate::new` and `Candidate::successors` are embedded
  verbatim; the `PartialOrd`/`Ord` implementations are `Candidate.cmpOpt`
  (which models the Rust method returning `Option<Ordering>`) and
  `Candidate.cmpOrd` (the `Ord::cmp` method, whose `unwrap` is total because
  `cmpOpt` always returns `some`);
* the `BinaryHeap` is modelled as a plain list; `popMin` removes a candidate
  that is maximal for `Candidate.cmpOrd` (that is, of minimal priority key
  `cost + min_remaining_cost`), choosing the earliest such element on ties.
  The Rust `BinaryHeap` leaves the order of equal-key pops unspecified, so
  this is one deterministic refinement of it;
* the `while let` loop of `solve` is embedded as the fuel-indexed function
  `solveLoop`; `none` means the fuel ran out before the loop finished, while
  `some r` means the loop finished with the Rust result `r : Option (S × Nat)`
  (`some none` is Rust's `None`, i.e. exhaustion of the queue);
* `usize` arithmetic is modelled by `Nat`; the overflow analysis of the
  candidate comparison uses explicit `% 2 ^ 64` (`usizeWrap`);
* the `Tracking` wrapper and its `State`/`PartialEq`/`Hash` implementations
  are embedded as `Tracking` and `trackingProblem`.
-/

namespace AStar

variable {S : Type}

/-- Embedding of the `State` trait of `a_star.rs` plus the `Eq`/`Hash` bounds
of `solve`: `beq` is the equality used by the visited `HashSet`. -/
structure SearchProblem (S : Type) where
  beq : S → S → Bool
  min_remaining_cost : S → Nat
  successors : S → List (S × Nat)
  is_complete : S → Bool

/-- Embedding of the `Candidate` struct: a state, the accumulated cost, and
the cached heuristic value computed by `Candidate::new`. -/
structure Candidate (S : Type) where
  state : S
  cost : Nat
  min_remaining_cost : Nat
deriving DecidableEq

/-- `Candidate::new`: caches `state.min_remaining_cost()`. -/
def Candidate.new (P : SearchProblem S) (state : S) (cost : Nat) : Candidate S :=
  { state := state, cost := cost, min_remaining_cost := P.min_remaining_cost state }

/-- The priority key `cost + min_remaining_cost` that the comparison uses. -/
def Candidate.fkey (c : Candidate S) : Nat :=
  c.cost + c.min_remaining_cost

/-- Embedding of `PartialOrd::partial_cmp` for `Candidate`: compare the sums
`cost + min_remaining_cost` and reverse the result (`Ordering::reverse`, which
exchanges `Less` and `Greater`, is `Ordering.swap`).  It always returns
`some`. -/
def Candidate.cmpOpt (a b : Candidate S) : Option Ordering :=
  some ((compare (a.cost + a.min_remaining_cost) (b.cost + b.min_remaining_cost)).swap)

/-- Embedding of `Ord::cmp` for `Candidate`: `partial_cmp(other).unwrap()`.
The `unwrap` cannot panic because `cmpOpt` is always `some`, which the
`Option.get` proof obligation records. -/
def Candidate.cmpOrd (a b : Candidate S) : Ordering :=
  (Candidate.cmpOpt a b).get rfl

/-- Embedding of `Candidate::successors`: map the state's successors to new
candidates with accumulated cost `self.cost + cost`. -/
def Candidate.succCands (P : SearchProblem S) (c : Candidate S) : List (Candidate S) :=
  (P.successors c.state).map (fun sc => Candidate.new P sc.1 (c.cost + sc.2))

/-- Embedding of `HashSet::contains` on the visited set: membership up to the
state type's `beq`. -/
def containsState (P : SearchProblem S) (visited : List S) (s : S) : Bool :=
  visited.any (fun v => P.beq s v)

/-- Embedding of `BinaryHeap::pop`: remove an element that is maximal for
`Candidate.cmpOrd`, i.e. of minimal priority key (the comparison is
reversed).  On equal keys the earliest element is chosen; the Rust heap does
not specify which equal-key element is popped, and no claim depends on the
choice. -/
def popMin : List (Candidate S) → Option (Candidate S × List (Candidate S))
  | [] => none
  | c :: rest =>
    match popMin rest with
    | none => some (c, [])
    | some (m, rest') =>
      match Candidate.cmpOrd c m with
      | Ordering.lt => some (m, c :: rest')
      | _ => some (c, rest)

/-- Embedding of the `while let Some(candidate) = heap.pop()` loop of `solve`,
indexed by fuel.  `none` = fuel exhausted before the loop finished;
`some none` = the heap emptied (Rust returns `None`); `some (some (s, c))` =
Rust returns `Some((s, c))`.  The loop body follows the source line by line:
completion test, visited test, insertion into the visited set, and pushing
the not-yet-visited successor candidates. -/
def solveLoop (P : SearchProblem S) : Nat → List (Candidate S) → List S → Option (Option (S × Nat))
  | 0, _, _ => none
  | fuel + 1, heap, visited =>
    match popMin heap with
    | none => some none
    | some (candidate, rest) =>
      if P.is_complete candidate.state then
        some (some (candidate.state, candidate.cost))
      else if containsState P visited candidate.state then
        solveLoop P fuel rest visited
      else
        solveLoop P fuel
          (rest ++ (Candidate.succCands P candidate).filter
            (fun nc => ! containsState P (candidate.state :: visited) nc.state))
          (candidate.state :: visited)

/-- Embedding of `solve`: start from an empty visited set and a heap holding
the initial state at cost `0`. -/
def solveN (P : SearchProblem S) (initial_state : S) (fuel : Nat) : Option (Option (S × Nat)) :=
  solveLoop P fuel [Candidate.new P initial_state 0] []

/-- Instrumented variant of `solveLoop` that additionally returns the final
visited set, with each state paired with the accumulated cost at which it was
expanded (the cost is ghost data: the Rust `HashSet` stores only the state).
The first component coincides with `solveLoop` (`solveLoopE_fst`), and the
new visited entries are exactly the states whose `successors` the loop
generated, newest first. -/
def solveLoopE (P : SearchProblem S) :
    Nat → List (Candidate S) → List (S × Nat) → Option (Option (S × Nat)) × List (S × Nat)
  | 0, _, vis => (none, vis)
  | fuel + 1, heap, vis =>
    match popMin heap with
    | none => (some none, vis)
    | some (candidate, rest) =>
      if P.is_complete candidate.state then
        (some (some (candidate.state, candidate.cost)), vis)
      else if containsState P (vis.map Prod.fst) candidate.state then
        solveLoopE P fuel rest vis
      else
        solveLoopE P fuel
          (rest ++ (Candidate.succCands P candidate).filter
            (fun nc => ! containsState P
              (((candidate.state, candidate.cost) :: vis).map Prod.fst) nc.state))
          ((candidate.state, candidate.cost) :: vis)

/-- `solveN` with the instrumented loop. -/
def solveNE (P : SearchProblem S) (initial_state : S) (fuel : Nat) :
    Option (Option (S × Nat)) × List (S × Nat) :=
  solveLoopE P fuel [Candidate.new P initial_state 0] []

/-- `Steps succ s t c`: the state graph generated by the successor function
`succ` has a path from `s` to `t` of total edge cost `c`. -/
inductive Steps (succ : S → List (S × Nat)) : S → S → Nat → Prop
  | refl (s : S) : Steps succ s s 0
  | tail {s v w : S} {p d : Nat} :
      Steps succ s v p → (w, d) ∈ succ v → Steps succ s w (p + d)

/-- The heuristic never exceeds the cost of any path to a complete state. -/
def Admissible (P : SearchProblem S) : Prop :=
  ∀ s t c, Steps P.successors s t c → P.is_complete t = true →
    P.min_remaining_cost s ≤ c

/-- The heuristic decreases by at most the edge cost along every edge. -/
def Consistent (P : SearchProblem S) : Prop :=
  ∀ v w d, (w, d) ∈ P.successors v →
    P.min_remaining_cost v ≤ d + P.min_remaining_cost w

/-- The visited-set equality agrees with propositional equality (true of every
`Eq`/`Hash` implementation the repository instantiates `solve` at, except the
`Tracking` wrapper, whose equality is state-only by design). -/
def LawfulBeq (P : SearchProblem S) : Prop :=
  ∀ a b, P.beq a b = true ↔ a = b

/-- Embedding of the `Tracking` wrapper: a state plus the history of
`(previous state, edge cost)` pairs along the path that produced it. -/
structure Tracking (S : Type) where
  state : S
  history : List (S × Nat)
deriving DecidableEq

/-- `Tracking::new`: empty history. -/
def Tracking.new (state : S) : Tracking S :=
  { state := state, history := [] }

/-- `Tracking::successor`: the new history is the old one with
`(self.state, cost)` appended — the edge cost is recorded on the *source*
state's entry — and the returned edge cost is unchanged. -/
def Tracking.successor (t : Tracking S) (state : S) (cost : Nat) : Tracking S × Nat :=
  ({ state := state, history := t.history ++ [(t.state, cost)] }, cost)

/-- The `Hash` implementation of `Tracking` delegates to the inner state's
hash (`hashS` stands for the inner `Hash::hash` composed with a `Hasher`). -/
def Tracking.hashWith (hashS : S → UInt64) (t : Tracking S) : UInt64 :=
  hashS t.state

/-- The `State`, `PartialEq`/`Eq` and `Hash` implementations of
`Tracking<S>` as one `SearchProblem`: equality compares only the inner
states, the trait methods delegate to the inner state, and `successors`
threads the history through `Tracking.successor`. -/
def trackingProblem (P : SearchProblem S) : SearchProblem (Tracking S) where
  beq a b := P.beq a.state b.state
  min_remaining_cost t := P.min_remaining_cost t.state
  successors t := (P.successors t.state).map (fun sc => t.successor sc.1 sc.2)
  is_complete t := P.is_complete t.state

/-- Sum of the edge costs recorded in a history. -/
def histSum (history : List (S × Nat)) : Nat :=
  (history.map Prod.snd).sum

/-- `validHistory P h final`: the history `h` is a chain in the graph of `P`
ending at `final`: each entry's state together with the *next* entry's state
and this entry's recorded cost is a genuine successor edge, and `final`
(paired with the last recorded cost) is a successor of the last entry's
state. -/
def validHistory (P : SearchProblem S) : List (S × Nat) → S → Prop
  | [], _ => True
  | (s, c) :: rest, final =>
    match rest with
    | [] => (final, c) ∈ P.successors s
    | (s', _) :: _ => (s', c) ∈ P.successors s ∧ validHistory P rest final

/-- The modulus of `usize` arithmetic (the targets the repository builds for
have 64-bit `usize`). -/
def USIZE_SIZE : Nat := 2 ^ 64

/-- `usize::MAX`. -/
def USIZE_MAX : Nat := USIZE_SIZE - 1

/-- The candidate comparison as executed with release-mode (wrapping) `usize`
addition: both sums are reduced modulo `2 ^ 64`. -/
def Candidate.cmpOptWrapping (a b : Candidate S) : Option Ordering :=
  some ((compare ((a.cost + a.min_remaining_cost) % USIZE_SIZE)
    ((b.cost + b.min_remaining_cost) % USIZE_SIZE)).swap)

/-- Debug-mode `usize` addition: `none` models the overflow panic. -/
def usizeCheckedAdd (x y : Nat) : Option Nat :=
  if x + y ≤ USIZE_MAX then some (x + y) else none

/-! ### Basic facts about the candidate ordering and `popMin` -/

theorem cmpOrd_eq_swap_compare (a b : Candidate S) :
    Candidate.cmpOrd a b = (compare a.fkey b.fkey).swap := rfl

theorem cmpOrd_lt_iff (a b : Candidate S) :
    Candidate.cmpOrd a b = Ordering.lt ↔ b.fkey < a.fkey := by
  rw [cmpOrd_eq_swap_compare]
  rcases lt_trichotomy a.fkey b.fkey with h | h | h
  · simp [Nat.compare_eq_lt.mpr h, Ordering.swap]
    omega
  · simp [h, Nat.compare_eq_eq.mpr rfl, Ordering.swap]
  · simp [Nat.compare_eq_gt.mpr h, Ordering.swap, h]

theorem popMin_eq_none_iff (l : List (Candidate S)) :
    popMin l = none ↔ l = [] := by
  cases l with
  | nil => simp [popMin]
  | cons c rest =>
    simp only [popMin]
    constructor
    · intro h
      cases hr : popMin rest with
      | none => simp [hr] at h
      | some p =>
        simp only [hr] at h
        rcases p with ⟨m, rest'⟩
        cases hc : Candidate.cmpOrd c m <;> simp [hc] at h
    · intro h; cases h

theorem popMin_spec (l : List (Candidate S)) :
    match popMin l with
    | none => l = []
    | some (c, rest) => l.Perm (c :: rest) ∧ ∀ x ∈ l, c.fkey ≤ x.fkey := by
  induction l with
  | nil => simp [popMin]
  | cons x xs ih =>
    simp only [popMin]
    cases hr : popMin xs with
    | none =>
      have hxs : xs = [] := (popMin_eq_none_iff xs).mp hr
      subst hxs
      simp
    | some p =>
      rcases p with ⟨m, rest'⟩
      rw [hr] at ih
      obtain ⟨hperm, hmin⟩ := ih
      simp only
      cases hc : Candidate.cmpOrd x m with
      | lt =>
        have hlt : m.fkey < x.fkey := (cmpOrd_lt_iff x m).mp hc
        simp only
        refine ⟨(hperm.cons x).trans (List.Perm.swap m x rest'), ?_⟩
        intro y hy
        rcases List.mem_cons.mp hy with rfl | hy
        · exact le_of_lt hlt
        · exact hmin y hy
      | eq =>
        have hle : ¬ x.fkey > m.fkey := by
          intro hlt
          rw [(cmpOrd_lt_iff x m).mpr hlt] at hc
          cases hc
        simp only
        refine ⟨List.Perm.refl _, ?_⟩
        intro y hy
        rcases List.mem_cons.mp hy with rfl | hy
        · exact le_refl _
        · exact le_trans (le_of_not_lt hle) (hmin y hy)
      | gt =>
        have hle : ¬ x.fkey > m.fkey := by
          intro hlt
          rw [(cmpOrd_lt_iff x m).mpr hlt] at hc
          cases hc
        simp only
        refine ⟨List.Perm.refl _, ?_⟩
        intro y hy
        rcases List.mem_cons.mp hy with rfl | hy
        · exact le_refl _
        · exact le_trans (le_of_not_lt hle) (hmin y hy)

theorem popMin_perm {l : List (Candidate S)} {c : Candidate S}
    {rest : List (Candidate S)} (h : popMin l = some (c, rest)) :
    l.Perm (c :: rest) := by
  have hs := popMin_spec l
  rw [h] at hs
  exact hs.1

theorem popMin_min {l : List (Candidate S)} {c : Candidate S}
    {rest : List (Candidate S)} (h : popMin l = some (c, rest)) :
    ∀ x ∈ l, c.fkey ≤ x.fkey := by
  have hs := popMin_spec l
  rw [h] at hs
  exact hs.2

theorem popMin_mem {l : List (Candidate S)} {c : Candidate S}
    {rest : List (Candidate S)} (h : popMin l = some (c, rest)) :
    c ∈ l :=
  (popMin_perm h).mem_iff.mpr (List.mem_cons_self c rest)

theorem popMin_rest_subset {l : List (Candidate S)} {c : Candidate S}
    {rest : List (Candidate S)} (h : popMin l = some (c, rest)) :
    ∀ x ∈ rest, x ∈ l :=
  fun _ hx => (popMin_perm h).mem_iff.mpr (List.mem_cons_of_mem c hx)

/-! ### Unfolding lemmas for the loop -/

theorem solveLoop_zero (P : SearchProblem S) (heap : List (Candidate S)) (visited : List S) :
    solveLoop P 0 heap visited = none := rfl

theorem solveLoop_empty (P : SearchProblem S) (fuel : Nat) (heap : List (Candidate S))
    (visited : List S) (hpop : popMin heap = none) :
    solveLoop P (fuel + 1) heap visited = some none := by
  simp only [solveLoop]
  rw [hpop]

theorem solveLoop_pop (P : SearchProblem S) (fuel : Nat) (heap : List (Candidate S))
    (visited : List S) (candidate : Candidate S) (rest : List (Candidate S))
    (hpop : popMin heap = some (candidate, rest)) :
    solveLoop P (fuel + 1) heap visited =
      if P.is_complete candidate.state then
        some (some (candidate.state, candidate.cost))
      else if containsState P visited candidate.state then
        solveLoop P fuel rest visited
      else
        solveLoop P fuel
          (rest ++ (Candidate.succCands P candidate).filter
            (fun nc => ! containsState P (candidate.state :: visited) nc.state))
          (candidate.state :: visited) := by
  simp only [solveLoop]
  rw [hpop]

theorem solveLoopE_zero (P : SearchProblem S) (heap : List (Candidate S))
    (vis : List (S × Nat)) : solveLoopE P 0 heap vis = (none, vis) := rfl

theorem solveLoopE_empty (P : SearchProblem S) (fuel : Nat) (heap : List (Candidate S))
    (vis : List (S × Nat)) (hpop : popMin heap = none) :
    solveLoopE P (fuel + 1) heap vis = (some none, vis) := by
  simp only [solveLoopE]
  rw [hpop]

theorem solveLoopE_pop (P : SearchProblem S) (fuel : Nat) (heap : List (Candidate S))
    (vis : List (S × Nat)) (candidate : Candidate S) (rest : List (Candidate S))
    (hpop : popMin heap = some (candidate, rest)) :
    solveLoopE P (fuel + 1) heap vis =
      if P.is_complete candidate.state then
        (some (some (candidate.state, candidate.cost)), vis)
      else if containsState P (vis.map Prod.fst) candidate.state then
        solveLoopE P fuel rest vis
      else
        solveLoopE P fuel
          (rest ++ (Candidate.succCands P candidate).filter
            (fun nc => ! containsState P
              (((candidate.state, candidate.cost) :: vis).map Prod.fst) nc.state))
          ((candidate.state, candidate.cost) :: vis) := by
  simp only [solveLoopE]
  rw [hpop]

/-- The instrumented loop computes the same result as the plain one. -/
theorem solveLoopE_fst (P : SearchProblem S) :
    ∀ (fuel : Nat) (heap : List (Candidate S)) (vis : List (S × Nat)),
      (solveLoopE P fuel heap vis).1 = solveLoop P fuel heap (vis.map Prod.fst) := by
  intro fuel
  induction fuel with
  | zero => intro heap vis; rfl
  | succ fuel ih =>
    intro heap vis
    cases hpop : popMin heap with
    | none => rw [solveLoopE_empty P fuel heap vis hpop, solveLoop_empty P fuel heap _ hpop]
    | some p =>
      rcases p with ⟨candidate, rest⟩
      rw [solveLoopE_pop P fuel heap vis candidate rest hpop,
        solveLoop_pop P fuel heap _ candidate rest hpop]
      by_cases hcomp : P.is_complete candidate.state = true
      · rw [if_pos hcomp, if_pos hcomp]
      · rw [if_neg hcomp, if_neg hcomp]
        by_cases hvis : containsState P (vis.map Prod.fst) candidate.state = true
        · rw [if_pos hvis, if_pos hvis]
          exact ih rest vis
        · rw [if_neg hvis, if_neg hvis]
          rw [ih]
          rfl

theorem solveNE_fst (P : SearchProblem S) (initial_state : S) (fuel : Nat) :
    (solveNE P initial_state fuel).1 = solveN P initial_state fuel :=
  solveLoopE_fst P fuel [Candidate.new P initial_state 0] []

/-- With a lawful equality, the visited-set test is list membership. -/
theorem containsState_iff {P : SearchProblem S} (hbeq : LawfulBeq P)
    (visited : List S) (s : S) :
    containsState P visited s = true ↔ s ∈ visited := by
  simp only [containsState, List.any_eq_true]
  constructor
  · rintro ⟨v, hv, hb⟩
    rw [(hbeq s v).mp hb]
    exact hv
  · intro hs
    exact ⟨s, hs, (hbeq s s).mpr rfl⟩

/-! ### A generic invariant carried by every candidate the loop creates -/

/-- If `Q` holds of the initial candidates and is preserved along successor
edges, then it holds of any returned state/cost pair, and the returned state
passes the completion test.  This mirrors the fact that every candidate
`solve` ever pushes is produced by `Candidate::new` along a chain of
`successors` calls starting from a candidate initially in the heap. -/
theorem solveLoop_result_sound (P : SearchProblem S) (Q : S → Nat → Prop)
    (hstep : ∀ s g, Q s g → ∀ sc ∈ P.successors s, Q sc.1 (g + sc.2)) :
    ∀ (fuel : Nat) (heap : List (Candidate S)) (visited : List S) (t : S) (g : Nat),
      (∀ c ∈ heap, Q c.state c.cost) →
      solveLoop P fuel heap visited = some (some (t, g)) →
      P.is_complete t = true ∧ Q t g := by
  intro fuel
  induction fuel with
  | zero =>
    intro heap visited t g _ h
    rw [solveLoop_zero] at h
    cases h
  | succ fuel ih =>
    intro heap visited t g hheap h
    cases hpop : popMin heap with
    | none =>
      rw [solveLoop_empty P fuel heap visited hpop] at h
      simp at h
    | some p =>
      rcases p with ⟨candidate, rest⟩
      rw [solveLoop_pop P fuel heap visited candidate rest hpop] at h
      by_cases hcomp : P.is_complete candidate.state = true
      · rw [if_pos hcomp] at h
        have h' : (candidate.state, candidate.cost) = (t, g) :=
          Option.some.inj (Option.some.inj h)
        have h1 : candidate.state = t := congrArg Prod.fst h'
        have h2 : candidate.cost = g := congrArg Prod.snd h'
        subst h1
        subst h2
        exact ⟨hcomp, hheap candidate (popMin_mem hpop)⟩
      · rw [if_neg hcomp] at h
        by_cases hvis : containsState P visited candidate.state = true
        · rw [if_pos hvis] at h
          exact ih rest visited t g
            (fun c hc => hheap c (popMin_rest_subset hpop c hc)) h
        · rw [if_neg hvis] at h
          refine ih _ _ t g ?_ h
          intro c hc
          rcases List.mem_append.mp hc with hc | hc
          · exact hheap c (popMin_rest_subset hpop c hc)
          · have hc1 := (List.mem_filter.mp hc).1
            simp only [Candidate.succCands, List.mem_map] at hc1
            obtain ⟨sc, hsc, rfl⟩ := hc1
            exact hstep _ _ (hheap candidate (popMin_mem hpop)) sc hsc

/-! ### The A* invariant -/

/-- Along any path, a consistent heuristic drops by at most the path cost. -/
theorem consistent_steps_bound {P : SearchProblem S} (hcons : Consistent P)
    {u t : S} {q : Nat} (h : Steps P.successors u t q) :
    P.min_remaining_cost u ≤ q + P.min_remaining_cost t := by
  induction h with
  | refl => simp
  | tail hst hmem ih =>
    have h2 := hcons _ _ _ hmem
    omega

/-- Paths compose. -/
theorem Steps.trans {succ : S → List (S × Nat)} {s v t : S} {p q : Nat}
    (h1 : Steps succ s v p) (h2 : Steps succ v t q) : Steps succ s t (p + q) := by
  induction h2 with
  | refl => exact h1
  | tail hst hmem ih => exact (Nat.add_assoc _ _ _) ▸ Steps.tail ih hmem

/-- The invariant the search loop maintains, with the visited set carrying
the (ghost) cost at which each state was expanded.
`heap_sound`/`heap_h`: every queued candidate carries the exact cost of a
real path from `s0`, and the heuristic value cached by `Candidate::new`.
`vis_incomplete`: complete states are returned rather than expanded, so they
never enter the visited set.
`vis_fkey`: states are expanded in nondecreasing priority-key order, so an
expanded state's key bounds every queued candidate's key from below.
`vis_step`: every edge out of an expanded state is covered: its target was
itself expanded at no greater cost, or a candidate for it at no greater cost
is still queued.
`start_covered`: the start state is expanded at cost `0` or still queued at
cost `0`. -/
structure LoopInv (P : SearchProblem S) (s0 : S) (heap : List (Candidate S))
    (vis : List (S × Nat)) : Prop where
  heap_sound : ∀ c ∈ heap, Steps P.successors s0 c.state c.cost
  heap_h : ∀ c ∈ heap, c.min_remaining_cost = P.min_remaining_cost c.state
  vis_incomplete : ∀ v g, (v, g) ∈ vis → P.is_complete v = false
  vis_fkey : ∀ v g, (v, g) ∈ vis → ∀ c ∈ heap,
    g + P.min_remaining_cost v ≤ c.fkey
  vis_step : ∀ v gv, (v, gv) ∈ vis → ∀ w d, (w, d) ∈ P.successors v →
    (∃ g, g ≤ gv + d ∧ (w, g) ∈ vis) ∨
    (∃ c ∈ heap, c.state = w ∧ c.cost ≤ gv + d)
  start_covered : (s0, 0) ∈ vis ∨ ∃ c ∈ heap, c.state = s0 ∧ c.cost = 0

/-- Coverage: any path from the start is witnessed by an expansion of its
endpoint at no greater cost, or by a queued candidate sitting on it whose
cost plus remaining path cost is no greater. -/
theorem path_covered {P : SearchProblem S} {s0 : S} {heap : List (Candidate S)}
    {vis : List (S × Nat)} (inv : LoopInv P s0 heap vis) :
    ∀ t c, Steps P.successors s0 t c →
      (∃ g, g ≤ c ∧ (t, g) ∈ vis) ∨
      (∃ cd ∈ heap, ∃ q, Steps P.successors cd.state t q ∧ cd.cost + q ≤ c) := by
  intro t c hst
  induction hst with
  | refl =>
    rcases inv.start_covered with hv | ⟨cd, hcd, hstate, hcost⟩
    · exact Or.inl ⟨0, le_refl 0, hv⟩
    · exact Or.inr ⟨cd, hcd, 0, hstate ▸ Steps.refl _, by omega⟩
  | tail hst hmem ih =>
    rcases ih with ⟨g, hg, hv⟩ | ⟨cd, hcd, q, hsteps, hb⟩
    · rcases inv.vis_step _ _ hv _ _ hmem with ⟨gw, hgw, hvw⟩ | ⟨cd, hcd, hstate, hcost⟩
      · exact Or.inl ⟨gw, by omega, hvw⟩
      · exact Or.inr ⟨cd, hcd, 0, hstate ▸ Steps.refl _, by omega⟩
    · exact Or.inr ⟨cd, hcd, _, Steps.tail hsteps hmem, by omega⟩

/-- When a complete candidate is popped, its accumulated cost is minimal
among all paths from the start to any complete state. -/
theorem popped_complete_minimal {P : SearchProblem S} {s0 : S}
    {heap : List (Candidate S)} {vis : List (S × Nat)}
    (hcons : Consistent P)
    (hgoal : ∀ s, P.is_complete s = true → P.min_remaining_cost s = 0)
    (inv : LoopInv P s0 heap vis)
    {cand : Candidate S} {rest : List (Candidate S)}
    (hpop : popMin heap = some (cand, rest))
    (hcomp : P.is_complete cand.state = true) :
    ∀ t c, P.is_complete t = true → Steps P.successors s0 t c → cand.cost ≤ c := by
  intro t c htc hst
  rcases path_covered inv t c hst with ⟨g, hg, hv⟩ | ⟨cd, hcd, q, hsteps, hb⟩
  · have hfalse := inv.vis_incomplete _ _ hv
    rw [htc] at hfalse
    cases hfalse
  · have hk := popMin_min hpop cd hcd
    have hch : cand.min_remaining_cost = P.min_remaining_cost cand.state :=
      inv.heap_h cand (popMin_mem hpop)
    have hcdh : cd.min_remaining_cost = P.min_remaining_cost cd.state :=
      inv.heap_h cd hcd
    have hb2 : P.min_remaining_cost cd.state ≤ q + P.min_remaining_cost t :=
      consistent_steps_bound hcons hsteps
    have h0 : P.min_remaining_cost cand.state = 0 := hgoal _ hcomp
    have ht0 : P.min_remaining_cost t = 0 := hgoal _ htc
    simp only [Candidate.fkey] at hk
    omega

/-- Discarding an already-visited popped candidate preserves the invariant. -/
theorem loopInv_skip {P : SearchProblem S} {s0 : S} {heap : List (Candidate S)}
    {vis : List (S × Nat)} (inv : LoopInv P s0 heap vis)
    {cand : Candidate S} {rest : List (Candidate S)}
    (hpop : popMin heap = some (cand, rest))
    (hvis : ∃ g, (cand.state, g) ∈ vis) :
    LoopInv P s0 rest vis := by
  obtain ⟨g0, hg0⟩ := hvis
  have hsub := popMin_rest_subset hpop
  have hmemc := popMin_mem hpop
  have hch := inv.heap_h cand hmemc
  have hg0c : g0 ≤ cand.cost := by
    have hf := inv.vis_fkey _ _ hg0 cand hmemc
    simp only [Candidate.fkey] at hf
    omega
  refine ⟨?_, ?_, inv.vis_incomplete, ?_, ?_, ?_⟩
  · exact fun c hc => inv.heap_sound c (hsub c hc)
  · exact fun c hc => inv.heap_h c (hsub c hc)
  · exact fun v g hv c hc => inv.vis_fkey v g hv c (hsub c hc)
  · intro v gv hv w d hmem
    rcases inv.vis_step v gv hv w d hmem with h | ⟨c, hc, hstate, hcost⟩
    · exact Or.inl h
    · have hcc : c = cand ∨ c ∈ rest := by
        simpa using (popMin_perm hpop).mem_iff.mp hc
      rcases hcc with rfl | h'
      · exact Or.inl ⟨g0, by omega, hstate ▸ hg0⟩
      · exact Or.inr ⟨c, h', hstate, hcost⟩
  · rcases inv.start_covered with hv | ⟨c, hc, hstate, hcost⟩
    · exact Or.inl hv
    · have hcc : c = cand ∨ c ∈ rest := by
        simpa using (popMin_perm hpop).mem_iff.mp hc
      rcases hcc with rfl | h'
      · left
        have hz : g0 = 0 := by omega
        rw [← hstate, ← hz]
        exact hg0
      · exact Or.inr ⟨c, h', hstate, hcost⟩

/-- Expanding a fresh, incomplete popped candidate preserves the invariant. -/
theorem loopInv_expand {P : SearchProblem S} {s0 : S} {heap : List (Candidate S)}
    {vis : List (S × Nat)} (hcons : Consistent P) (hbeq : LawfulBeq P)
    (inv : LoopInv P s0 heap vis)
    {cand : Candidate S} {rest : List (Candidate S)}
    (hpop : popMin heap = some (cand, rest))
    (hcomp : P.is_complete cand.state = false)
    (hnotvis : containsState P (vis.map Prod.fst) cand.state = false) :
    LoopInv P s0
      (rest ++ (Candidate.succCands P cand).filter
        (fun nc => ! containsState P
          (((cand.state, cand.cost) :: vis).map Prod.fst) nc.state))
      ((cand.state, cand.cost) :: vis) := by
  have hsub := popMin_rest_subset hpop
  have hmemc := popMin_mem hpop
  have hch := inv.heap_h cand hmemc
  have hpushed_mem : ∀ c ∈ (Candidate.succCands P cand).filter
      (fun nc => ! containsState P
        (((cand.state, cand.cost) :: vis).map Prod.fst) nc.state),
      ∃ w d, (w, d) ∈ P.successors cand.state ∧ c = Candidate.new P w (cand.cost + d) := by
    intro c hc
    have h1 := (List.mem_filter.mp hc).1
    simp only [Candidate.succCands, List.mem_map] at h1
    obtain ⟨sc, hsc, rfl⟩ := h1
    exact ⟨sc.1, sc.2, by simpa using hsc, rfl⟩
  have hpush_in : ∀ w d, (w, d) ∈ P.successors cand.state →
      w ∉ cand.state :: vis.map Prod.fst →
      Candidate.new P w (cand.cost + d) ∈ (Candidate.succCands P cand).filter
        (fun nc => ! containsState P
          (((cand.state, cand.cost) :: vis).map Prod.fst) nc.state) := by
    intro w d hmem hnot
    apply List.mem_filter.mpr
    constructor
    · exact List.mem_map.mpr ⟨(w, d), hmem, rfl⟩
    · have hcs : containsState P (cand.state :: vis.map Prod.fst)
          (Candidate.new P w (cand.cost + d)).state = false := by
        rw [← Bool.not_eq_true, containsState_iff hbeq]
        exact hnot
      simpa using hcs
  refine ⟨?_, ?_, ?_, ?_, ?_, ?_⟩
  · intro c hc
    rcases List.mem_append.mp hc with hc | hc
    · exact inv.heap_sound c (hsub c hc)
    · obtain ⟨w, d, hmem, rfl⟩ := hpushed_mem c hc
      exact Steps.tail (inv.heap_sound cand hmemc) hmem
  · intro c hc
    rcases List.mem_append.mp hc with hc | hc
    · exact inv.heap_h c (hsub c hc)
    · obtain ⟨w, d, hmem, rfl⟩ := hpushed_mem c hc
      rfl
  · intro v g hv
    rcases List.mem_cons.mp hv with heq | hv
    · have h1 : v = cand.state := congrArg Prod.fst heq
      rw [h1]
      exact hcomp
    · exact inv.vis_incomplete v g hv
  · intro v g hv c hc
    rcases List.mem_cons.mp hv with heq | hv
    · have h1 : v = cand.state := congrArg Prod.fst heq
      have h2 : g = cand.cost := congrArg Prod.snd heq
      subst h1
      subst h2
      rcases List.mem_append.mp hc with hc | hc
      · have hmin := popMin_min hpop c (hsub c hc)
        simp only [Candidate.fkey] at hmin ⊢
        omega
      · obtain ⟨w, d, hmem, rfl⟩ := hpushed_mem c hc
        have hcons2 := hcons _ _ _ hmem
        show cand.cost + P.min_remaining_cost cand.state ≤
          cand.cost + d + P.min_remaining_cost w
        omega
    · rcases List.mem_append.mp hc with hc | hc
      · exact inv.vis_fkey v g hv c (hsub c hc)
      · obtain ⟨w, d, hmem, rfl⟩ := hpushed_mem c hc
        have hold := inv.vis_fkey v g hv cand hmemc
        have hcons2 := hcons _ _ _ hmem
        simp only [Candidate.fkey] at hold
        show g + P.min_remaining_cost v ≤ cand.cost + d + P.min_remaining_cost w
        omega
  · intro v gv hv w d hmem
    rcases List.mem_cons.mp hv with heq | hv
    · have h1 : v = cand.state := congrArg Prod.fst heq
      have h2 : gv = cand.cost := congrArg Prod.snd heq
      subst h1
      subst h2
      by_cases hw : w ∈ cand.state :: vis.map Prod.fst
      · rcases List.mem_cons.mp hw with rfl | hw
        · exact Or.inl ⟨cand.cost, by omega, List.mem_cons_self _ _⟩
        · obtain ⟨⟨w2, gw⟩, hwv, hfst⟩ := List.mem_map.mp hw
          have hw2 : w2 = w := hfst
          subst hw2
          have hold := inv.vis_fkey w2 gw hwv cand hmemc
          have hcons2 := hcons _ _ _ hmem
          simp only [Candidate.fkey] at hold
          exact Or.inl ⟨gw, by omega, List.mem_cons_of_mem _ hwv⟩
      · refine Or.inr ⟨Candidate.new P w (cand.cost + d),
          List.mem_append_right _ (hpush_in w d hmem hw), rfl, ?_⟩
        show cand.cost + d ≤ cand.cost + d
        exact le_refl _
    · rcases inv.vis_step v gv hv w d hmem with ⟨g, hg, hgv⟩ | ⟨c, hc, hstate, hcost⟩
      · exact Or.inl ⟨g, hg, List.mem_cons_of_mem _ hgv⟩
      · have hcc : c = cand ∨ c ∈ rest := by
          simpa using (popMin_perm hpop).mem_iff.mp hc
        rcases hcc with rfl | h'
        · refine Or.inl ⟨c.cost, by omega, ?_⟩
          rw [← hstate]
          exact List.mem_cons_self _ _
        · exact Or.inr ⟨c, List.mem_append_left _ h', hstate, hcost⟩
  · rcases inv.start_covered with hv | ⟨c, hc, hstate, hcost⟩
    · exact Or.inl (List.mem_cons_of_mem _ hv)
    · have hcc : c = cand ∨ c ∈ rest := by
        simpa using (popMin_perm hpop).mem_iff.mp hc
      rcases hcc with rfl | h'
      · left
        rw [← hstate, ← hcost]
        exact List.mem_cons_self _ _
      · exact Or.inr ⟨c, List.mem_append_left _ h', hstate, hcost⟩

/-- Main loop lemma: under the invariant, with a consistent heuristic that is
zero on complete states, a returned pair is a complete state reached at the
minimum cost over all paths to complete states, and queue exhaustion means no
complete state is reachable at all. -/
theorem solveLoopE_optimal {P : SearchProblem S} {s0 : S}
    (hcons : Consistent P)
    (hgoal : ∀ s, P.is_complete s = true → P.min_remaining_cost s = 0)
    (hbeq : LawfulBeq P) :
    ∀ (fuel : Nat) (heap : List (Candidate S)) (vis : List (S × Nat)),
      LoopInv P s0 heap vis →
      (∀ t g, (solveLoopE P fuel heap vis).1 = some (some (t, g)) →
        P.is_complete t = true ∧ Steps P.successors s0 t g ∧
        ∀ t2 c, P.is_complete t2 = true → Steps P.successors s0 t2 c → g ≤ c) ∧
      ((solveLoopE P fuel heap vis).1 = some none →
        ∀ t c, Steps P.successors s0 t c → P.is_complete t = false) := by
  intro fuel
  induction fuel with
  | zero =>
    intro heap vis inv
    constructor
    · intro t g h
      rw [solveLoopE_zero] at h
      cases h
    · intro h
      rw [solveLoopE_zero] at h
      cases h
  | succ fuel ih =>
    intro heap vis inv
    cases hpop : popMin heap with
    | none =>
      constructor
      · intro t g h
        rw [solveLoopE_empty P fuel heap vis hpop] at h
        have h2 : (some none : Option (Option (S × Nat))) = some (some (t, g)) := h
        simp at h2
      · intro _ t c hst
        have hempty : heap = [] := (popMin_eq_none_iff heap).mp hpop
        subst hempty
        cases hcomp : P.is_complete t with
        | false => rfl
        | true =>
          rcases path_covered inv t c hst with ⟨g, _, hv⟩ | ⟨cd, hcd, _⟩
          · have h2 := inv.vis_incomplete _ _ hv
            rw [hcomp] at h2
            cases h2
          · cases hcd
    | some p =>
      rcases p with ⟨cand, rest⟩
      by_cases hcomp : P.is_complete cand.state = true
      · constructor
        · intro t g h
          rw [solveLoopE_pop P fuel heap vis cand rest hpop, if_pos hcomp] at h
          have h2 : (some (some (cand.state, cand.cost)) : Option (Option (S × Nat)))
            = some (some (t, g)) := h
          have h3 : (cand.state, cand.cost) = (t, g) := Option.some.inj (Option.some.inj h2)
          have h4 : cand.state = t := congrArg Prod.fst h3
          have h5 : cand.cost = g := congrArg Prod.snd h3
          subst h4
          subst h5
          exact ⟨hcomp, inv.heap_sound cand (popMin_mem hpop),
            popped_complete_minimal hcons hgoal inv hpop hcomp⟩
        · intro h
          rw [solveLoopE_pop P fuel heap vis cand rest hpop, if_pos hcomp] at h
          have h2 : (some (some (cand.state, cand.cost)) : Option (Option (S × Nat)))
            = some none := h
          simp at h2
      · have hcompf : P.is_complete cand.state = false := by
          revert hcomp
          cases P.is_complete cand.state <;> simp
        by_cases hvis : containsState P (vis.map Prod.fst) cand.state = true
        · have hex : ∃ g, (cand.state, g) ∈ vis := by
            obtain ⟨⟨v, g⟩, hvmem, hfst⟩ :=
              List.mem_map.mp ((containsState_iff hbeq _ _).mp hvis)
            have hv2 : v = cand.state := hfst
            subst hv2
            exact ⟨g, hvmem⟩
          have ihh := ih rest vis (loopInv_skip inv hpop hex)
          constructor
          · intro t g h
            rw [solveLoopE_pop P fuel heap vis cand rest hpop, if_neg hcomp,
              if_pos hvis] at h
            exact ihh.1 t g h
          · intro h
            rw [solveLoopE_pop P fuel heap vis cand rest hpop, if_neg hcomp,
              if_pos hvis] at h
            exact ihh.2 h
        · have hvisf : containsState P (vis.map Prod.fst) cand.state = false := by
            revert hvis
            cases containsState P (vis.map Prod.fst) cand.state <;> simp
          have ihh := ih _ _ (loopInv_expand hcons hbeq inv hpop hcompf hvisf)
          constructor
          · intro t g h
            rw [solveLoopE_pop P fuel heap vis cand rest hpop, if_neg hcomp,
              if_neg hvis] at h
            exact ihh.1 t g h
          · intro h
            rw [solveLoopE_pop P fuel heap vis cand rest hpop, if_neg hcomp,
              if_neg hvis] at h
            exact ihh.2 h

/-- The invariant holds for the initial heap and empty visited set. -/
theorem loopInv_init (P : SearchProblem S) (s0 : S) :
    LoopInv P s0 [Candidate.new P s0 0] [] := by
  refine ⟨?_, ?_, ?_, ?_, ?_, ?_⟩
  · intro c hc
    rcases List.mem_singleton.mp hc with rfl
    exact Steps.refl s0
  · intro c hc
    rcases List.mem_singleton.mp hc with rfl
    rfl
  · intro v g hv
    cases hv
  · intro v g hv
    cases hv
  · intro v gv hv
    cases hv
  · exact Or.inr ⟨Candidate.new P s0 0, List.mem_singleton.mpr rfl, rfl, rfl⟩

/-! ### Termination on finite graphs -/

/-- Total number of successor entries of the not-yet-visited states of `R`:
the number of pushes the search can still perform. -/
def potential [DecidableEq S] (P : SearchProblem S) (R : Finset S)
    (visited : List S) : Nat :=
  ∑ x ∈ R.filter (fun x => x ∉ visited), (P.successors x).length

theorem potential_cons [DecidableEq S] (P : SearchProblem S) (R : Finset S)
    (visited : List S) (s : S) (hsR : s ∈ R) (hsv : s ∉ visited) :
    potential P R (s :: visited) + (P.successors s).length = potential P R visited := by
  have hfe : R.filter (fun x => x ∉ s :: visited)
      = (R.filter (fun x => x ∉ visited)).erase s := by
    ext x
    simp only [Finset.mem_filter, Finset.mem_erase, List.mem_cons]
    tauto
  have hmem : s ∈ R.filter (fun x => x ∉ visited) :=
    Finset.mem_filter.mpr ⟨hsR, hsv⟩
  rw [potential, potential, hfe]
  exact Finset.sum_erase_add _ _ hmem

/-- On a finite, successor-closed state space `R` the loop finishes once the
fuel exceeds the heap size plus the number of pushes still possible. -/
theorem solveLoop_terminates [DecidableEq S] {P : SearchProblem S}
    (hbeq : LawfulBeq P) (R : Finset S)
    (hclosed : ∀ s ∈ R, ∀ w d, (w, d) ∈ P.successors s → w ∈ R) :
    ∀ (fuel : Nat) (heap : List (Candidate S)) (visited : List S),
      (∀ c ∈ heap, c.state ∈ R) →
      heap.length + potential P R visited < fuel →
      (solveLoop P fuel heap visited).isSome = true := by
  intro fuel
  induction fuel with
  | zero =>
    intro heap visited _ hlt
    exact absurd hlt (Nat.not_lt_zero _)
  | succ fuel ih =>
    intro heap visited hR hlt
    cases hpop : popMin heap with
    | none =>
      rw [solveLoop_empty P fuel heap visited hpop]
      rfl
    | some p =>
      rcases p with ⟨cand, rest⟩
      have hlen : heap.length = rest.length + 1 := by
        have := (popMin_perm hpop).length_eq
        simpa using this
      rw [solveLoop_pop P fuel heap visited cand rest hpop]
      by_cases hcomp : P.is_complete cand.state = true
      · rw [if_pos hcomp]
        rfl
      · rw [if_neg hcomp]
        by_cases hvis : containsState P visited cand.state = true
        · rw [if_pos hvis]
          apply ih rest visited (fun c hc => hR c (popMin_rest_subset hpop c hc))
          omega
        · rw [if_neg hvis]
          have hcandR : cand.state ∈ R := hR cand (popMin_mem hpop)
          have hcandnv : cand.state ∉ visited := by
            intro hmem
            exact hvis ((containsState_iff hbeq visited cand.state).mpr hmem)
          have hpot := potential_cons P R visited cand.state hcandR hcandnv
          apply ih
          · intro c hc
            rcases List.mem_append.mp hc with hc | hc
            · exact hR c (popMin_rest_subset hpop c hc)
            · have h1 := (List.mem_filter.mp hc).1
              simp only [Candidate.succCands, List.mem_map] at h1
              obtain ⟨sc, hsc, rfl⟩ := h1
              exact hclosed cand.state hcandR sc.1 sc.2 (by simpa using hsc)
          · have hplen : ((Candidate.succCands P cand).filter
                (fun nc => ! containsState P (cand.state :: visited) nc.state)).length
                ≤ (P.successors cand.state).length := by
              calc ((Candidate.succCands P cand).filter
                  (fun nc => ! containsState P (cand.state :: visited) nc.state)).length
                  ≤ (Candidate.succCands P cand).length := List.length_filter_le _ _
                _ = (P.successors cand.state).length := by
                    simp [Candidate.succCands]
            rw [List.length_append]
            omega

/-! ### Top-level consequences for `solveN` -/

/-- `solveLoopE_optimal` transported to `solveN`. -/
theorem solveN_optimal_core {P : SearchProblem S} {s0 : S}
    (hcons : Consistent P)
    (hgoal : ∀ s, P.is_complete s = true → P.min_remaining_cost s = 0)
    (hbeq : LawfulBeq P) (fuel : Nat) :
    (∀ t g, solveN P s0 fuel = some (some (t, g)) →
      P.is_complete t = true ∧ Steps P.successors s0 t g ∧
      ∀ t2 c, P.is_complete t2 = true → Steps P.successors s0 t2 c → g ≤ c) ∧
    (solveN P s0 fuel = some none →
      ∀ t c, Steps P.successors s0 t c → P.is_complete t = false) := by
  have h := solveLoopE_optimal hcons hgoal hbeq fuel
    [Candidate.new P s0 0] [] (loopInv_init P s0)
  rw [solveLoopE_fst] at h
  exact h

/-- With a lawful equality, a consistent and admissible heuristic, and a
finite successor-closed state space containing the start, `solveN` reaches a
complete state at the minimum possible cost whenever one is reachable. -/
theorem solveN_finds_min [DecidableEq S] {P : SearchProblem S} {s0 : S}
    (hbeq : LawfulBeq P) (hcons : Consistent P) (hadm : Admissible P)
    (R : Finset S) (hs0 : s0 ∈ R)
    (hclosed : ∀ s ∈ R, ∀ w d, (w, d) ∈ P.successors s → w ∈ R)
    (hreach : ∃ t c, Steps P.successors s0 t c ∧ P.is_complete t = true) :
    ∃ fuel t g, solveN P s0 fuel = some (some (t, g)) ∧ P.is_complete t = true ∧
      Steps P.successors s0 t g ∧
      ∀ t2 c, P.is_complete t2 = true → Steps P.successors s0 t2 c → g ≤ c := by
  have hgoal : ∀ s, P.is_complete s = true → P.min_remaining_cost s = 0 := by
    intro s hs
    have := hadm s s 0 (Steps.refl s) hs
    omega
  have hfuel : (solveN P s0 (2 + potential P R [])).isSome = true := by
    apply solveLoop_terminates hbeq R hclosed
    · intro c hc
      rcases List.mem_singleton.mp hc with rfl
      exact hs0
    · show 1 + potential P R [] < 2 + potential P R []
      omega
  cases hval : solveN P s0 (2 + potential P R []) with
  | none =>
    rw [hval] at hfuel
    cases hfuel
  | some res =>
    cases res with
    | none =>
      obtain ⟨t, c, hst, hc⟩ := hreach
      have hnone := (solveN_optimal_core hcons hgoal hbeq _).2 hval t c hst
      rw [hc] at hnone
      cases hnone
    | some p =>
      rcases p with ⟨t, g⟩
      obtain ⟨h1, h2, h3⟩ := (solveN_optimal_core hcons hgoal hbeq _).1 t g hval
      exact ⟨_, t, g, hval, h1, h2, h3⟩

/-- Companion to `solveN_finds_min`: on a finite state space with no
reachable complete state, the queue empties and `solveN` reports exhaustion. -/
theorem solveN_exhausts [DecidableEq S] {P : SearchProblem S} {s0 : S}
    (hbeq : LawfulBeq P) (R : Finset S) (hs0 : s0 ∈ R)
    (hclosed : ∀ s ∈ R, ∀ w d, (w, d) ∈ P.successors s → w ∈ R)
    (hnone : ∀ t c, Steps P.successors s0 t c → P.is_complete t = false) :
    ∃ fuel, solveN P s0 fuel = some none := by
  have hfuel : (solveN P s0 (2 + potential P R [])).isSome = true := by
    apply solveLoop_terminates hbeq R hclosed
    · intro c hc
      rcases List.mem_singleton.mp hc with rfl
      exact hs0
    · show 1 + potential P R [] < 2 + potential P R []
      omega
  cases hval : solveN P s0 (2 + potential P R []) with
  | none =>
    rw [hval] at hfuel
    cases hfuel
  | some res =>
    cases res with
    | none => exact ⟨_, hval⟩
    | some p =>
      rcases p with ⟨t, g⟩
      have hsound := solveLoop_result_sound P (Steps P.successors s0)
        (fun s g2 hQ sc hsc => Steps.tail hQ (by simpa using hsc))
        _ _ _ t g ?_ hval
      · rw [hnone t g hsound.2] at hsound
        cases hsound.1
      · intro c hc
        rcases List.mem_singleton.mp hc with rfl
        exact Steps.refl s0

/-! ### The visited set never repeats a state -/

/-- Every state is inserted into the visited set at most once: the new
entries of the instrumented loop's visited set are distinct. -/
theorem solveLoopE_vis_nodup {P : SearchProblem S} (hbeq : LawfulBeq P) :
    ∀ (fuel : Nat) (heap : List (Candidate S)) (vis : List (S × Nat)),
      (vis.map Prod.fst).Nodup →
      ((solveLoopE P fuel heap vis).2.map Prod.fst).Nodup := by
  intro fuel
  induction fuel with
  | zero =>
    intro heap vis h
    exact h
  | succ fuel ih =>
    intro heap vis h
    cases hpop : popMin heap with
    | none =>
      rw [solveLoopE_empty P fuel heap vis hpop]
      exact h
    | some p =>
      rcases p with ⟨cand, rest⟩
      rw [solveLoopE_pop P fuel heap vis cand rest hpop]
      by_cases hcomp : P.is_complete cand.state = true
      · rw [if_pos hcomp]
        exact h
      · rw [if_neg hcomp]
        by_cases hvis : containsState P (vis.map Prod.fst) cand.state = true
        · rw [if_pos hvis]
          exact ih rest vis h
        · rw [if_neg hvis]
          apply ih
          simp only [List.map_cons]
          refine List.nodup_cons.mpr ⟨?_, h⟩
          intro hmem
          exact hvis ((containsState_iff hbeq _ _).mpr hmem)

/-! ### History bookkeeping of the Tracking wrapper -/

theorem histSum_append_single (h : List (S × Nat)) (s : S) (c : Nat) :
    histSum (h ++ [(s, c)]) = histSum h + c := by
  simp [histSum]

theorem validHistory_append {P : SearchProblem S} :
    ∀ (h : List (S × Nat)) (s final : S) (c : Nat),
      validHistory P h s → (final, c) ∈ P.successors s →
      validHistory P (h ++ [(s, c)]) final := by
  intro h
  induction h with
  | nil =>
    intro s final c _ hmem
    exact hmem
  | cons p rest ih =>
    rcases p with ⟨s1, c1⟩
    intro s final c hvalid hmem
    cases rest with
    | nil => exact ⟨hvalid, hmem⟩
    | cons p2 rest2 =>
      rcases p2 with ⟨s2, c2⟩
      exact ⟨hvalid.1, ih s final c hvalid.2 hmem⟩

/-- The candidate-level invariant of the Tracking wrapper is preserved along
`Tracking::successor`: the history's cost sum tracks the accumulated cost and
the history chains through genuine successor edges. -/
theorem tracking_Q_step (P : SearchProblem S) :
    ∀ (t : Tracking S) (g : Nat),
      histSum t.history = g ∧ validHistory P t.history t.state →
      ∀ sc ∈ (trackingProblem P).successors t,
        histSum sc.1.history = g + sc.2 ∧ validHistory P sc.1.history sc.1.state := by
  intro t g hQ sc hsc
  obtain ⟨hsum, hvalid⟩ := hQ
  obtain ⟨sc0, hsc0, rfl⟩ := List.mem_map.mp hsc
  constructor
  · show histSum (t.history ++ [(t.state, sc0.2)]) = g + sc0.2
    rw [histSum_append_single, hsum]
  · show validHistory P (t.history ++ [(t.state, sc0.2)]) sc0.1
    exact validHistory_append t.history t.state sc0.1 sc0.2 hvalid (by simpa using hsc0)

/-! ### More facts about the candidate comparison -/

theorem cmpOrd_gt_iff (a b : Candidate S) :
    Candidate.cmpOrd a b = Ordering.gt ↔ a.fkey < b.fkey := by
  rw [cmpOrd_eq_swap_compare]
  rcases lt_trichotomy a.fkey b.fkey with h | h | h
  · simp [Nat.compare_eq_lt.mpr h, Ordering.swap, h]
  · simp only [h, Nat.compare_eq_eq.mpr rfl, Ordering.swap]
    constructor
    · intro hx; cases hx
    · intro hx; omega
  · simp only [Nat.compare_eq_gt.mpr h, Ordering.swap]
    constructor
    · intro hx; cases hx
    · intro hx; omega

theorem cmpOrd_eq_iff (a b : Candidate S) :
    Candidate.cmpOrd a b = Ordering.eq ↔ a.fkey = b.fkey := by
  rw [cmpOrd_eq_swap_compare]
  rcases lt_trichotomy a.fkey b.fkey with h | h | h
  · simp only [Nat.compare_eq_lt.mpr h, Ordering.swap]
    constructor
    · intro hx; cases hx
    · intro hx; omega
  · simp [h, Nat.compare_eq_eq.mpr rfl, Ordering.swap]
  · simp only [Nat.compare_eq_gt.mpr h, Ordering.swap]
    constructor
    · intro hx; cases hx
    · intro hx; omega

/-! ### A generic lower bound along paths, for admissibility proofs -/

/-- Any table `lb` that vanishes on the diagonal and satisfies the triangle
inequality along every edge bounds path costs from below. -/
theorem steps_lb {succ : S → List (S × Nat)} (lb : S → S → Nat)
    (hdiag : ∀ x, lb x x = 0)
    (htri : ∀ x v w d, (w, d) ∈ succ v → lb x w ≤ lb x v + d) :
    ∀ x t c, Steps succ x t c → lb x t ≤ c := by
  intro x t c h
  induction h with
  | refl => exact le_of_eq (hdiag x)
  | tail hst hmem ih =>
    have h2 := htri x _ _ _ hmem
    omega

/-- The same problem with the heuristic replaced by the constant zero
(Dijkstra-style search). -/
def zeroHeuristic (P : SearchProblem S) : SearchProblem S :=
  { P with min_remaining_cost := fun _ => 0 }

/-! ### Concrete graphs used as witnesses and counterexamples -/

/-- States of the counterexample graph. -/
inductive CexS : Type
  | s | a | b | g
deriving DecidableEq

instance : Fintype CexS where
  elems := {CexS.s, CexS.a, CexS.b, CexS.g}
  complete := by intro x; cases x <;> decide

/-- A finite graph whose heuristic is admissible but not consistent:
`a` has heuristic 3 yet a zero-cost edge to `b` with heuristic 0.
Edges: `s→a` (1), `s→b` (2), `a→b` (0), `b→g` (3); only `g` is complete.
The cheapest path `s→a→b→g` costs 4, but the engine expands `b` via the
costlier direct edge first and then never reopens it. -/
def cexProblem : SearchProblem CexS where
  beq x y := decide (x = y)
  min_remaining_cost x :=
    match x with
    | CexS.s => 0
    | CexS.a => 3
    | CexS.b => 0
    | CexS.g => 0
  successors x :=
    match x with
    | CexS.s => [(CexS.a, 1), (CexS.b, 2)]
    | CexS.a => [(CexS.b, 0)]
    | CexS.b => [(CexS.g, 3)]
    | CexS.g => []
  is_complete x :=
    match x with
    | CexS.g => true
    | _ => false

/-- True shortest distances in `cexProblem` (0 where unreachable):
a lower-bound table for the admissibility proof. -/
def cexLB : CexS → CexS → Nat
  | CexS.s, CexS.a => 1
  | CexS.s, CexS.b => 1
  | CexS.s, CexS.g => 4
  | CexS.a, CexS.g => 3
  | CexS.b, CexS.g => 3
  | _, _ => 0

theorem cexProblem_admissible : Admissible cexProblem := by
  intro x t c hst hcomp
  have hpair : ∀ x v, ∀ sc ∈ cexProblem.successors v,
      cexLB x sc.1 ≤ cexLB x v + sc.2 := by decide
  have hlb := steps_lb cexLB (by decide)
    (fun x v w d hm => hpair x v (w, d) hm) x t c hst
  have ht : t = CexS.g := by
    cases t
    · exact absurd hcomp (by decide)
    · exact absurd hcomp (by decide)
    · exact absurd hcomp (by decide)
    · rfl
  subst ht
  have hx : cexProblem.min_remaining_cost x ≤ cexLB x CexS.g := by
    cases x <;> decide
  omega

/-- All states of `CexS`. -/
def cexAll : Finset CexS := {CexS.s, CexS.a, CexS.b, CexS.g}

theorem cexClosed : ∀ v ∈ cexAll, ∀ w d,
    (w, d) ∈ cexProblem.successors v → w ∈ cexAll := by
  have hpair : ∀ v ∈ cexAll, ∀ sc ∈ cexProblem.successors v, sc.1 ∈ cexAll := by decide
  exact fun v hv w d hm => hpair v hv (w, d) hm

theorem cexProblem_lawful : LawfulBeq cexProblem :=
  fun _ _ => decide_eq_true_iff

/-- States of the diamond graph of the spec's test battery. -/
inductive DiaS : Type
  | a | b | c | d
deriving DecidableEq

instance : Fintype DiaS where
  elems := {DiaS.a, DiaS.b, DiaS.c, DiaS.d}
  complete := by intro x; cases x <;> decide

/-- A 4-node diamond: `a→b→d` costs 1+1, `a→c→d` costs 2+2, only `d` is
complete, with a consistent and admissible (nonzero) heuristic. -/
def diaProblem : SearchProblem DiaS where
  beq x y := decide (x = y)
  min_remaining_cost x :=
    match x with
    | DiaS.a => 2
    | DiaS.b => 1
    | DiaS.c => 2
    | DiaS.d => 0
  successors x :=
    match x with
    | DiaS.a => [(DiaS.b, 1), (DiaS.c, 2)]
    | DiaS.b => [(DiaS.d, 1)]
    | DiaS.c => [(DiaS.d, 2)]
    | DiaS.d => []
  is_complete x :=
    match x with
    | DiaS.d => true
    | _ => false

/-- True shortest distances in `diaProblem` (a large constant where
unreachable, so that the triangle inequality holds on every edge). -/
def diaLB : DiaS → DiaS → Nat
  | DiaS.a, DiaS.a => 0
  | DiaS.a, DiaS.b => 1
  | DiaS.a, DiaS.c => 2
  | DiaS.a, DiaS.d => 2
  | DiaS.b, DiaS.b => 0
  | DiaS.b, DiaS.d => 1
  | DiaS.c, DiaS.c => 0
  | DiaS.c, DiaS.d => 2
  | DiaS.d, DiaS.d => 0
  | _, _ => 100

theorem diaProblem_consistent : Consistent diaProblem := by
  have hpair : ∀ v, ∀ sc ∈ diaProblem.successors v,
      diaProblem.min_remaining_cost v ≤ sc.2 + diaProblem.min_remaining_cost sc.1 := by
    decide
  exact fun v w d hm => hpair v (w, d) hm

theorem diaProblem_admissible : Admissible diaProblem := by
  intro x t c hst hcomp
  have hpair : ∀ x v, ∀ sc ∈ diaProblem.successors v,
      diaLB x sc.1 ≤ diaLB x v + sc.2 := by decide
  have hlb := steps_lb diaLB (by decide)
    (fun x v w d hm => hpair x v (w, d) hm) x t c hst
  have ht : t = DiaS.d := by
    cases t
    · exact absurd hcomp (by decide)
    · exact absurd hcomp (by decide)
    · exact absurd hcomp (by decide)
    · rfl
  subst ht
  have hx : diaProblem.min_remaining_cost x ≤ diaLB x DiaS.d := by
    cases x <;> decide
  omega

/-- All states of `DiaS`. -/
def diaAll : Finset DiaS := {DiaS.a, DiaS.b, DiaS.c, DiaS.d}

theorem diaClosed : ∀ s ∈ diaAll, ∀ w d,
    (w, d) ∈ diaProblem.successors s → w ∈ diaAll := by
  have hpair : ∀ s ∈ diaAll, ∀ sc ∈ diaProblem.successors s, sc.1 ∈ diaAll := by decide
  exact fun s hs w d hm => hpair s hs (w, d) hm

theorem diaProblem_lawful : LawfulBeq diaProblem :=
  fun _ _ => decide_eq_true_iff

/-- The spec's exhaustion test graph: one isolated, incomplete state. -/
def noGoalProblem : SearchProblem Unit where
  beq _ _ := true
  min_remaining_cost _ := 0
  successors _ := []
  is_complete _ := false

/-- The optimal path of the diamond graph: `a→b→d` at cost 2. -/
theorem diaPath : Steps diaProblem.successors DiaS.a DiaS.d 2 := by
  have h1 : Steps diaProblem.successors DiaS.a DiaS.b (0 + 1) :=
    Steps.tail (Steps.refl DiaS.a) (by decide)
  have h2 : Steps diaProblem.successors DiaS.a DiaS.d ((0 + 1) + 1) :=
    Steps.tail h1 (by decide)
  simpa using h2

/-- The optimal path of the counterexample graph: `s→a→b→g` at cost 4. -/
theorem cexPath : Steps cexProblem.successors CexS.s CexS.g 4 := by
  have h1 : Steps cexProblem.successors CexS.s CexS.a (0 + 1) :=
    Steps.tail (Steps.refl CexS.s) (by decide)
  have h2 : Steps cexProblem.successors CexS.s CexS.b ((0 + 1) + 0) :=
    Steps.tail h1 (by decide)
  have h3 : Steps cexProblem.successors CexS.s CexS.g (((0 + 1) + 0) + 3) :=
    Steps.tail h2 (by decide)
  simpa using h3

/-! ### Claim theorems -/

/-- C1 (counterexample): the claim "an admissible heuristic suffices for
optimality" is false on this code.  `cexProblem` is a finite graph with
non-negative edge costs and an admissible heuristic, the complete state `g`
is reachable at cost 4 (via `s→a→b→g`), yet `solve` returns cost 5: the
engine expands `b` at cost 2 first (the inconsistent heuristic of `a`
delays the cheaper route), inserts `b` into the visited set, and never
reopens it. -/
theorem admissible_heuristic_not_optimal_cex :
    Admissible cexProblem ∧
    solveN cexProblem CexS.s 5 = some (some (CexS.g, 5)) ∧
    Steps cexProblem.successors CexS.s CexS.g 4 ∧
    cexProblem.is_complete CexS.g = true :=
  ⟨cexProblem_admissible, by decide, cexPath, rfl⟩

/-- C1 (amended): for every finite state graph with non-negative edge costs
and an admissible **and consistent** heuristic, whenever a complete state is
reachable, `solve` returns `Some` with cost equal to the minimum total cost
over all paths from the initial state to any complete state: any result the
loop produces is such a minimum, and enough fuel produces a result. -/
theorem solve_optimal_for_consistent_admissible [DecidableEq S]
    {P : SearchProblem S} {s0 : S}
    (hbeq : LawfulBeq P) (hcons : Consistent P) (hadm : Admissible P)
    (R : Finset S) (hs0 : s0 ∈ R)
    (hclosed : ∀ s ∈ R, ∀ w d, (w, d) ∈ P.successors s → w ∈ R)
    (hreach : ∃ t c, Steps P.successors s0 t c ∧ P.is_complete t = true) :
    (∀ fuel t g, solveN P s0 fuel = some (some (t, g)) →
      P.is_complete t = true ∧ Steps P.successors s0 t g ∧
      ∀ t2 c, P.is_complete t2 = true → Steps P.successors s0 t2 c → g ≤ c) ∧
    (∃ fuel t g, solveN P s0 fuel = some (some (t, g))) := by
  have hgoal : ∀ s, P.is_complete s = true → P.min_remaining_cost s = 0 := by
    intro s2 hs2
    have := hadm s2 s2 0 (Steps.refl s2) hs2
    omega
  constructor
  · intro fuel t g hval
    exact (solveN_optimal_core hcons hgoal hbeq fuel).1 t g hval
  · obtain ⟨fuel, t, g, hval, _⟩ := solveN_finds_min hbeq hcons hadm R hs0 hclosed hreach
    exact ⟨fuel, t, g, hval⟩

/-- Witness for C1 (amended) on the diamond graph. -/
theorem solve_optimal_for_consistent_admissible_witness :
    (∀ fuel t g, solveN diaProblem DiaS.a fuel = some (some (t, g)) →
      diaProblem.is_complete t = true ∧ Steps diaProblem.successors DiaS.a t g ∧
      ∀ t2 c, diaProblem.is_complete t2 = true →
        Steps diaProblem.successors DiaS.a t2 c → g ≤ c) ∧
    (∃ fuel t g, solveN diaProblem DiaS.a fuel = some (some (t, g))) :=
  solve_optimal_for_consistent_admissible diaProblem_lawful diaProblem_consistent
    diaProblem_admissible diaAll (by decide) diaClosed ⟨DiaS.d, 2, diaPath, rfl⟩

/-- C2: if the loop finishes and no complete state is reachable from the
initial state, `solve` returns the absent value `None` (embedded as
`some none`; the embedding is a total function, so exhaustion is signalled
by this value and by no other means — the only partial operation of the
loop, `partial_cmp(..).unwrap()`, is proved total in `Candidate.cmpOrd`). -/
theorem solve_exhaustion_returns_none {P : SearchProblem S} {s0 : S} {fuel : Nat}
    (hterm : (solveN P s0 fuel).isSome = true)
    (hnone : ∀ t c, Steps P.successors s0 t c → P.is_complete t = false) :
    solveN P s0 fuel = some none := by
  cases hval : solveN P s0 fuel with
  | none =>
    rw [hval] at hterm
    simp at hterm
  | some res =>
    cases res with
    | none => rfl
    | some p =>
      rcases p with ⟨t, g⟩
      have hsound := solveLoop_result_sound P (Steps P.successors s0)
        (fun s2 g2 hQ sc hsc => Steps.tail hQ (by simpa using hsc))
        fuel [Candidate.new P s0 0] [] t g ?_ hval
      · have h1 := hsound.1
        rw [hnone t g hsound.2] at h1
        cases h1
      · intro c hc
        rcases List.mem_singleton.mp hc with rfl
        exact Steps.refl s0

/-- Witness for C2 on the one-state goalless graph. -/
theorem solve_exhaustion_returns_none_witness :
    solveN noGoalProblem () 2 = some none :=
  solve_exhaustion_returns_none (by decide) (fun t c _ => rfl)

/-- C3: every state is expanded (has its successors generated) at most once
per run: the states recorded by the instrumented loop — exactly those whose
expansion branch ran — are pairwise distinct, and the instrumented loop
computes the very result of `solve`. -/
theorem solve_expands_each_state_at_most_once {P : SearchProblem S} (s0 : S)
    (hbeq : LawfulBeq P) (fuel : Nat) :
    ((solveNE P s0 fuel).2.map Prod.fst).Nodup ∧
    (solveNE P s0 fuel).1 = solveN P s0 fuel :=
  ⟨solveLoopE_vis_nodup hbeq fuel [Candidate.new P s0 0] [] (by simp),
    solveNE_fst P s0 fuel⟩

/-- Witness for C3 on the diamond graph, where `d` is reachable along two
distinct paths. -/
theorem solve_expands_each_state_at_most_once_witness :
    ((solveNE diaProblem DiaS.a 10).2.map Prod.fst).Nodup ∧
    (solveNE diaProblem DiaS.a 10).1 = solveN diaProblem DiaS.a 10 :=
  solve_expands_each_state_at_most_once DiaS.a diaProblem_lawful 10

/-- C4: when `solve` over Tracking-wrapped states returns
`Some((final_tracking, total_cost))`, the history's edge costs sum to the
total cost, and the history is a valid successor chain ending in the final
state (`validHistory` states precisely that each entry's recorded cost,
attached to the *source* state, labels a genuine edge to the next entry's
state, the last edge leading to the final state). -/
theorem tracking_history_sums_and_chains {P : SearchProblem S} (s0 : S)
    (fuel : Nat) (t : Tracking S) (total : Nat)
    (hrun : solveN (trackingProblem P) (Tracking.new s0) fuel = some (some (t, total))) :
    histSum t.history = total ∧ validHistory P t.history t.state := by
  have hsound := solveLoop_result_sound (trackingProblem P)
    (fun tr g => histSum tr.history = g ∧ validHistory P tr.history tr.state)
    (tracking_Q_step P) fuel [Candidate.new (trackingProblem P) (Tracking.new s0) 0] []
    t total ?_ hrun
  · exact hsound.2
  · intro c hc
    rcases List.mem_singleton.mp hc with rfl
    exact ⟨rfl, trivial⟩

/-- Witness for C4 on the tracked run `s→a→b→g`-graph from `a`. -/
theorem tracking_history_sums_and_chains_witness :
    histSum [(CexS.a, 0), (CexS.b, 3)] = 3 ∧
    validHistory cexProblem [(CexS.a, 0), (CexS.b, 3)] CexS.g :=
  tracking_history_sums_and_chains CexS.a 3
    ⟨CexS.g, [(CexS.a, 0), (CexS.b, 3)]⟩ 3 (by decide)

/-- C5: if the initial state is already complete, `solve` returns
immediately (any positive fuel) with that state at cost 0, no state is ever
expanded (the instrumented visited set stays empty, so `successors` is never
called), and on a `Tracking::new` initial state the returned history is
empty. -/
theorem solve_complete_initial_immediate {P : SearchProblem S} {s0 : S}
    (hcomp : P.is_complete s0 = true) (fuel : Nat) :
    solveN P s0 (fuel + 1) = some (some (s0, 0)) ∧
    (solveNE P s0 (fuel + 1)).2 = [] ∧
    solveN (trackingProblem P) (Tracking.new s0) (fuel + 1)
      = some (some (Tracking.new s0, 0)) := by
  have hpop : popMin [Candidate.new P s0 0] = some (Candidate.new P s0 0, []) := rfl
  have hpop2 : popMin [Candidate.new (trackingProblem P) (Tracking.new s0) 0]
      = some (Candidate.new (trackingProblem P) (Tracking.new s0) 0, []) := rfl
  refine ⟨?_, ?_, ?_⟩
  · show solveLoop P (fuel + 1) [Candidate.new P s0 0] [] = some (some (s0, 0))
    rw [solveLoop_pop P fuel _ _ _ _ hpop]
    simp [Candidate.new, hcomp]
  · show (solveLoopE P (fuel + 1) [Candidate.new P s0 0] []).2 = []
    rw [solveLoopE_pop P fuel _ _ _ _ hpop]
    simp [Candidate.new, hcomp]
  · show solveLoop (trackingProblem P) (fuel + 1)
      [Candidate.new (trackingProblem P) (Tracking.new s0) 0] []
      = some (some (Tracking.new s0, 0))
    rw [solveLoop_pop (trackingProblem P) fuel _ _ _ _ hpop2]
    simp [Candidate.new, trackingProblem, Tracking.new, hcomp]

/-- Witness for C5 starting at the already-complete state `g`. -/
theorem solve_complete_initial_immediate_witness :
    solveN cexProblem CexS.g 1 = some (some (CexS.g, 0)) ∧
    (solveNE cexProblem CexS.g 1).2 = [] ∧
    solveN (trackingProblem cexProblem) (Tracking.new CexS.g) 1
      = some (some (Tracking.new CexS.g, 0)) :=
  solve_complete_initial_immediate rfl 0

/-- C6: the `Tracking` wrapper's identity ignores the history: its equality
delegates to the inner states' equality, states equal up to history hash
identically, and consequently the visited-set membership test used by
`solve` on Tracking-wrapped states coincides with the test on the unwrapped
inner states. -/
theorem tracking_identity_ignores_history (P : SearchProblem S) :
    (∀ t1 t2 : Tracking S, (trackingProblem P).beq t1 t2 = P.beq t1.state t2.state) ∧
    (∀ (hashS : S → UInt64) (s : S) (h1 h2 : List (S × Nat)),
      Tracking.hashWith hashS ⟨s, h1⟩ = Tracking.hashWith hashS ⟨s, h2⟩) ∧
    (∀ (vis : List (Tracking S)) (t : Tracking S),
      containsState (trackingProblem P) vis t
        = containsState P (vis.map Tracking.state) t.state) := by
  refine ⟨fun t1 t2 => rfl, fun hashS s h1 h2 => rfl, ?_⟩
  intro vis t
  induction vis with
  | nil => rfl
  | cons v vs ih =>
    show ((trackingProblem P).beq t v || containsState (trackingProblem P) vs t)
      = (P.beq t.state v.state || containsState P (vs.map Tracking.state) t.state)
    rw [ih]
    rfl

/-- C7: candidates are ordered solely by the priority key
`cost + min_remaining_cost`, with the comparison reversed: `a` compares
greater than `b` exactly when `a`'s key is smaller, equal exactly when the
keys are equal, and `Ord::cmp` is the (panic-free) unwrap of
`partial_cmp`. -/
theorem candidate_order_reversed_priority_key (a b : Candidate S) :
    (Candidate.cmpOrd a b = Ordering.gt ↔ a.fkey < b.fkey) ∧
    (Candidate.cmpOrd a b = Ordering.eq ↔ a.fkey = b.fkey) ∧
    Candidate.cmpOpt a b = some (Candidate.cmpOrd a b) :=
  ⟨cmpOrd_gt_iff a b, cmpOrd_eq_iff a b, rfl⟩

/-- C8 (counterexample): the zero heuristic does *not* always return the
same cost as an arbitrary admissible heuristic: on `cexProblem` the
Dijkstra-style zero-heuristic run returns the true optimum 4, while the
admissible (but inconsistent) heuristic makes `solve` return 5. -/
theorem zero_vs_admissible_heuristic_cex :
    Admissible cexProblem ∧
    solveN (zeroHeuristic cexProblem) CexS.s 6 = some (some (CexS.g, 4)) ∧
    solveN cexProblem CexS.s 5 = some (some (CexS.g, 5)) :=
  ⟨cexProblem_admissible, by decide, by decide⟩

/-- C8 (amended): on a finite graph, running `solve` with the always-zero
heuristic returns the same optimal cost as running it with any admissible
**and consistent** heuristic: both find the true minimum when a complete
state is reachable, and both report exhaustion otherwise. -/
theorem zero_heuristic_matches_consistent_heuristic [DecidableEq S]
    {P : SearchProblem S} {s0 : S}
    (hbeq : LawfulBeq P) (hcons : Consistent P) (hadm : Admissible P)
    (R : Finset S) (hs0 : s0 ∈ R)
    (hclosed : ∀ s ∈ R, ∀ w d, (w, d) ∈ P.successors s → w ∈ R) :
    ((∃ t c, Steps P.successors s0 t c ∧ P.is_complete t = true) →
      ∃ f0 f1 t0 t1 g, solveN (zeroHeuristic P) s0 f0 = some (some (t0, g)) ∧
        solveN P s0 f1 = some (some (t1, g))) ∧
    ((∀ t c, Steps P.successors s0 t c → P.is_complete t = false) →
      ∃ f0 f1, solveN (zeroHeuristic P) s0 f0 = some none ∧
        solveN P s0 f1 = some none) := by
  have hbeq0 : LawfulBeq (zeroHeuristic P) := hbeq
  have hcons0 : Consistent (zeroHeuristic P) := fun v w d _ => Nat.zero_le _
  have hadm0 : Admissible (zeroHeuristic P) := fun s2 t c _ _ => Nat.zero_le c
  have hclosed0 : ∀ s ∈ R, ∀ w d, (w, d) ∈ (zeroHeuristic P).successors s → w ∈ R :=
    hclosed
  constructor
  · intro hreach
    obtain ⟨f1, t1, g1, hrun1, hc1, hst1, hmin1⟩ :=
      solveN_finds_min hbeq hcons hadm R hs0 hclosed hreach
    obtain ⟨f0, t0, g0, hrun0, hc0, hst0, hmin0⟩ :=
      solveN_finds_min (P := zeroHeuristic P) hbeq0 hcons0 hadm0 R hs0 hclosed0 hreach
    have hgg : g0 = g1 := le_antisymm (hmin0 t1 g1 hc1 hst1) (hmin1 t0 g0 hc0 hst0)
    exact ⟨f0, f1, t0, t1, g1, hgg ▸ hrun0, hrun1⟩
  · intro hnone
    obtain ⟨f1, h1⟩ := solveN_exhausts hbeq R hs0 hclosed hnone
    obtain ⟨f0, h0⟩ := solveN_exhausts (P := zeroHeuristic P) hbeq0 R hs0 hclosed0 hnone
    exact ⟨f0, f1, h0, h1⟩

/-- Witness for C8 (amended) on the diamond graph. -/
theorem zero_heuristic_matches_consistent_heuristic_witness :
    ∃ f0 f1 t0 t1 g,
      solveN (zeroHeuristic diaProblem) DiaS.a f0 = some (some (t0, g)) ∧
      solveN diaProblem DiaS.a f1 = some (some (t1, g)) :=
  (zero_heuristic_matches_consistent_heuristic diaProblem_lawful diaProblem_consistent
    diaProblem_admissible diaAll (by decide) diaClosed).1 ⟨DiaS.d, 2, diaPath, rfl⟩

/-- C9: on a finite successor-closed state space (each state has a finite
successor list by construction), the loop terminates: some finite fuel makes
`solve` return a definitive result (`Some` or `None`). -/
theorem solve_terminates_finite_reachable [DecidableEq S] {P : SearchProblem S}
    {s0 : S} (hbeq : LawfulBeq P) (R : Finset S) (hs0 : s0 ∈ R)
    (hclosed : ∀ s ∈ R, ∀ w d, (w, d) ∈ P.successors s → w ∈ R) :
    ∃ fuel, (solveN P s0 fuel).isSome = true := by
  refine ⟨2 + potential P R [], ?_⟩
  apply solveLoop_terminates hbeq R hclosed
  · intro c hc
    rcases List.mem_singleton.mp hc with rfl
    exact hs0
  · show 1 + potential P R [] < 2 + potential P R []
    omega

/-- Witness for C9 on the counterexample graph. -/
theorem solve_terminates_finite_reachable_witness :
    ∃ fuel, (solveN cexProblem CexS.s fuel).isSome = true :=
  solve_terminates_finite_reachable cexProblem_lawful cexAll (by decide) cexClosed

/-- C10: as long as both candidates' `cost + min_remaining_cost` sums stay
within `usize::MAX`, the comparison computed with wrapping (release-mode)
`usize` addition agrees with the ideal comparison — no wrong ordering — and
the checked (debug-mode) additions succeed — no panic. -/
theorem candidate_cmp_no_overflow {a b : Candidate S}
    (ha : a.cost + a.min_remaining_cost ≤ USIZE_MAX)
    (hb : b.cost + b.min_remaining_cost ≤ USIZE_MAX) :
    Candidate.cmpOptWrapping a b = Candidate.cmpOpt a b ∧
    (usizeCheckedAdd a.cost a.min_remaining_cost).isSome = true ∧
    (usizeCheckedAdd b.cost b.min_remaining_cost).isSome = true := by
  have hlt : ∀ x : Nat, x ≤ USIZE_MAX → x % USIZE_SIZE = x := by
    intro x hx
    apply Nat.mod_eq_of_lt
    simp only [USIZE_MAX, USIZE_SIZE] at hx ⊢
    omega
  refine ⟨?_, ?_, ?_⟩
  · rw [Candidate.cmpOptWrapping, Candidate.cmpOpt, hlt _ ha, hlt _ hb]
  · rw [usizeCheckedAdd, if_pos ha]
    rfl
  · rw [usizeCheckedAdd, if_pos hb]
    rfl

/-- Witness for C10 on two concrete candidates. -/
theorem candidate_cmp_no_overflow_witness :
    Candidate.cmpOptWrapping (⟨(), 3, 4⟩ : Candidate Unit) ⟨(), 2, 2⟩
      = Candidate.cmpOpt (⟨(), 3, 4⟩ : Candidate Unit) ⟨(), 2, 2⟩ ∧
    (usizeCheckedAdd 3 4).isSome = true ∧
    (usizeCheckedAdd 2 2).isSome = true :=
  candidate_cmp_no_overflow (by decide) (by decide)

end AStar
